import Mathlib

/-!  Shallow embedding of the order-matching core of the `@ickb/order` repository:
`src/entities.ts` (`Ratio`, `Info`, master references, `OrderData`),
`src/cells.ts` (`OrderCell`, descendant validation, `resolve`, `getNonDecreasing`)
and the order-manager module (`OrderMatcher`, `sequentialMatcher`, `bestMatch`).

JavaScript `bigint` values are modelled as `Int`; `bigint` division and remainder
truncate toward zero, so they are modelled by `Int.tdiv` and `Int.tmod`.
The JS float `realRatio` is modelled as an exact rational.  -/

namespace IckbOrder

/-- `Ratio` from `entities.ts`: a pair of `u64` scaling factors. -/
structure Ratio where
  ckbScale : Int
  udtScale : Int
deriving DecidableEq

/-- `Ratio.isEmpty`: both scales are zero. -/
def Ratio.isEmpty (r : Ratio) : Bool :=
  r.ckbScale == 0 && r.udtScale == 0

/-- `Ratio.isPopulated`: both scales are strictly positive. -/
def Ratio.isPopulated (r : Ratio) : Bool :=
  decide (0 < r.ckbScale) && decide (0 < r.udtScale)

/-- `Ratio.compare` from `entities.ts`. The source returns the JS number
`Number(x)` of a `bigint` difference; the conversion preserves the sign, which is
all callers use, so the exact integer is returned here. -/
def Ratio.compare (a other : Ratio) : Int :=
  if a.udtScale = other.udtScale then a.ckbScale - other.ckbScale
  else if a.ckbScale = other.ckbScale then other.udtScale - a.udtScale
  else a.ckbScale * other.udtScale - other.ckbScale * a.udtScale

/-- `Info` from `entities.ts`: two ratios and the `u8` exponent `ckbMinMatchLog`. -/
structure Info where
  ckbToUdt : Ratio
  udtToCkb : Ratio
  ckbMinMatchLog : Int
deriving DecidableEq

/-- `Info.validate` from `entities.ts`, with the thrown errors as `Except.error`. -/
def Info.validate (i : Info) : Except String Unit :=
  if i.ckbMinMatchLog < 0 ∨ 64 < i.ckbMinMatchLog then
    .error "ckbMinMatchLog invalid"
  else if i.ckbToUdt.isEmpty then
    if i.udtToCkb.isPopulated then .ok ()
    else .error "Info invalid: ckbToUdt is Empty, but udtToCkb is not Populated"
  else if i.udtToCkb.isEmpty then
    if i.ckbToUdt.isPopulated then .ok ()
    else .error "Info invalid: udtToCkb is Empty, but ckbToUdt is not Populated"
  else if ¬ i.ckbToUdt.isPopulated ∨ ¬ i.udtToCkb.isPopulated then
    .error "Info invalid: both ckbToUdt and udtToCkb should be Populated"
  else if i.ckbToUdt.ckbScale * i.udtToCkb.udtScale <
      i.ckbToUdt.udtScale * i.udtToCkb.ckbScale then
    .error "Info invalid: udtToCkb and ckbToUdt allow order value to be extracted"
  else .ok ()

/-- `Info.getCkbMinMatch`: `1n << BigInt(ckbMinMatchLog)` for a validated
(non-negative) exponent. -/
def Info.getCkbMinMatch (i : Info) : Int :=
  (2 : Int) ^ i.ckbMinMatchLog.toNat

/-- `Info.isCkb2Udt` (can also be dual ratio). -/
def Info.isCkb2Udt (i : Info) : Bool := i.ckbToUdt.isPopulated

/-- `Info.isUdt2Ckb` (can also be dual ratio). -/
def Info.isUdt2Ckb (i : Info) : Bool := i.udtToCkb.isPopulated

/-- `Info.isDualRatio`. -/
def Info.isDualRatio (i : Info) : Bool := i.isCkb2Udt && i.isUdt2Ckb

/-- `ccc.OutPoint`: transaction hash (opaque, here an integer) and output index. -/
structure OutPoint where
  txHash : Int
  index : Int
deriving DecidableEq

/-- `ccc.Script`, opaque to the core: only equality is used. -/
structure Script where
  ident : Int
deriving DecidableEq

/-- The `master` tagged union of `entities.ts`: a relative reference
(32 zero-padding bytes and a signed distance) or an absolute outpoint. -/
inductive Master where
  | relative (padding : List Nat) (distance : Int)
  | absolute (outPoint : OutPoint)
deriving DecidableEq

/-- `Data` of `entities.ts` (named `OrderData` in the manager module). -/
structure OrderData where
  udtAmount : Int
  master : Master
  info : Info
deriving DecidableEq

/-- `Data.isMint`: the master reference is relative. -/
def OrderData.isMint (d : OrderData) : Bool :=
  match d.master with
  | .relative _ _ => true
  | .absolute _ => false

/-- `Data.getMaster`: resolve the master reference against the current outpoint. -/
def OrderData.getMaster (d : OrderData) (current : OutPoint) : OutPoint :=
  match d.master with
  | .relative _ distance => ⟨current.txHash, current.index + distance⟩
  | .absolute value => value

/-- `ccc.CellOutput`: lock script, optional type script, capacity. -/
structure CellOutput where
  lock : Script
  type : Option Script
  capacity : Int
deriving DecidableEq

/-- `ccc.Cell`: outpoint identity, output fields and the occupied size used by
`bestMatch` for the mining fee. -/
structure Cell where
  outPoint : OutPoint
  cellOutput : CellOutput
  occupiedSize : Int
deriving DecidableEq

/-- `OrderCell` from `cells.ts`: a decoded order with its derived scalars. -/
structure OrderCell where
  cell : Cell
  data : OrderData
  ckbOccupied : Int
  ckbUnoccupied : Int
  absTotal : Int
  absProgress : Int
deriving DecidableEq

/-- `OrderCell.getMaster`. -/
def OrderCell.getMaster (o : OrderCell) : OutPoint :=
  o.data.getMaster o.cell.outPoint

/-- `OrderCell.ckbValue` of the manager module's order cells: the full capacity. -/
def OrderCell.ckbValue (o : OrderCell) : Int :=
  o.cell.cellOutput.capacity

/-- `OrderCell.udtValue` of the manager module's order cells. -/
def OrderCell.udtValue (o : OrderCell) : Int :=
  o.data.udtAmount

/-- `OrderCell.validate` from `cells.ts` (the confusion-attack countermeasure),
with the thrown errors as `Except.error`. The fourth check is kept exactly as the
source writes it: it compares `this.data.info` with `this.data.info` itself, not
with the descendant's info. -/
def OrderCell.validate (o descendant : OrderCell) : Except String Unit :=
  if o.cell.outPoint = descendant.cell.outPoint then .ok ()
  else if ¬ o.cell.cellOutput.lock = descendant.cell.cellOutput.lock then
    .error "Order script different"
  else
    match o.cell.cellOutput.type with
    | none => .error "UDT type is different"
    | some udt =>
      if ¬ descendant.cell.cellOutput.type = some udt then
        .error "UDT type is different"
      else if ¬ descendant.getMaster = o.getMaster then
        .error "Master is different"
      else if ¬ o.data.info = o.data.info then
        .error "Info is different"
      else if descendant.absTotal < o.absTotal then
        .error "Total value is lower than the original one"
      else if descendant.absProgress < o.absProgress then
        .error "Progress is lower than the original one"
      else .ok ()

/-- `OrderCell.isValid`. -/
def OrderCell.isValid (o descendant : OrderCell) : Bool :=
  match o.validate descendant with
  | .ok _ => true
  | .error _ => false

/-- `OrderCell.resolve` from `cells.ts`: the best valid descendant by
`absProgress`, at equality giving preference to newly minted orders. -/
def OrderCell.resolve (o : OrderCell) (descendants : List OrderCell) :
    Option OrderCell :=
  descendants.foldl
    (fun best descendant =>
      if o.isValid descendant = false then best
      else
        match best with
        | none => some descendant
        | some b =>
          if b.absProgress < descendant.absProgress ∨
              (b.absProgress = descendant.absProgress ∧ b.data.isMint = false) then
            some descendant
          else best)
    none

/-- `getNonDecreasing` from `cells.ts`, byte-identical to
`OrderMatcher.nonDecreasing` of the manager module: the rounded-up minimum `bOut`
of the non-decreasing value rule. `bigint` division truncates toward zero. -/
def nonDecreasing (aScale bScale aIn bIn aOut : Int) : Int :=
  (aScale * (aIn - aOut) + bScale * (bIn + 1) - 1).tdiv bScale

/-- One entry of a `Match`'s `partials` list in the manager module. -/
structure MatchPartial where
  order : OrderCell
  ckbOut : Int
  udtOut : Int
deriving DecidableEq

/-- `Match` of the manager module: matcher-perspective deltas and partials. -/
structure Match where
  ckbDelta : Int
  udtDelta : Int
  partials : List MatchPartial
deriving DecidableEq

/-- The empty match `{ckbDelta: 0n, udtDelta: 0n, partials: []}`. -/
def emptyMatch : Match :=
  { ckbDelta := 0, udtDelta := 0, partials := [] }

/-- `OrderMatcher` of the manager module: the parameters computed by its factory. -/
structure OrderMatcher where
  order : OrderCell
  isCkb2Udt : Bool
  aScale : Int
  bScale : Int
  aIn : Int
  bIn : Int
  aMin : Int
  bMinMatch : Int
  bMaxMatch : Int
  bMaxOut : Int
  realRatio : ℚ
deriving DecidableEq

/-- The direction-derived parameters of `OrderMatcher.from`: the two destructuring
branches of the factory. The source reads `order.data.info.ckbToUdt` in both
branches, swapping the roles of the two scales in the UDT-to-CKB case. -/
structure FromParams where
  aScale : Int
  bScale : Int
  aIn : Int
  bIn : Int
  aMin : Int
  bMinMatch : Int
  aMiningFee : Int
  bMiningFee : Int
deriving DecidableEq

/-- The parameter block `OrderMatcher.from` computes before its guards. -/
def OrderMatcher.params (order : OrderCell) (isCkb2Udt : Bool)
    (ckbMiningFee : Int) : FromParams :=
  if isCkb2Udt then
    { aScale := order.data.info.ckbToUdt.ckbScale
      bScale := order.data.info.ckbToUdt.udtScale
      aIn := order.ckbValue
      bIn := order.udtValue
      aMin := order.cell.cellOutput.capacity - order.ckbUnoccupied
      bMinMatch :=
        (order.data.info.getCkbMinMatch * order.data.info.ckbToUdt.udtScale +
            order.data.info.ckbToUdt.ckbScale - 1).tdiv
          order.data.info.ckbToUdt.ckbScale
      aMiningFee := ckbMiningFee
      bMiningFee := 0 }
  else
    { aScale := order.data.info.ckbToUdt.udtScale
      bScale := order.data.info.ckbToUdt.ckbScale
      aIn := order.udtValue
      bIn := order.ckbValue
      aMin := 0
      bMinMatch := order.data.info.getCkbMinMatch
      aMiningFee := 0
      bMiningFee := ckbMiningFee }

/-- The source's `realRatio`, a JS float `Number(aIn - aMin - aMiningFee) /
Number(bMaxMatch + bMiningFee)`, modelled as an exact rational: `mkRat` agrees
with the float's sign everywhere the factory evaluates it with a non-negative
mining fee (there the denominator is positive, while `mkRat _ 0 = 0` stands in
for the float infinity of a zero denominator). -/
def OrderMatcher.realRatioOf (order : OrderCell) (isCkb2Udt : Bool)
    (ckbMiningFee : Int) : ℚ :=
  let p := OrderMatcher.params order isCkb2Udt ckbMiningFee
  let bMaxOut := nonDecreasing p.aScale p.bScale p.aIn p.bIn p.aMin
  let bMaxMatch := bMaxOut - p.bIn
  mkRat (p.aIn - p.aMin - p.aMiningFee) (bMaxMatch + p.bMiningFee).toNat

/-- `OrderMatcher.from` of the manager module (`from` is a Lean keyword). Returns
`none` exactly where the source silently returns `undefined`. -/
def OrderMatcher.fromOrder (order : OrderCell) (isCkb2Udt : Bool)
    (ckbMiningFee : Int) : Option OrderMatcher :=
  let p := OrderMatcher.params order isCkb2Udt ckbMiningFee
  if p.aIn ≤ p.aMin + p.aMiningFee ∨ p.aScale ≤ 0 ∨ p.bScale ≤ 0 then none
  else
    let bMaxOut := nonDecreasing p.aScale p.bScale p.aIn p.bIn p.aMin
    let bMaxMatch := bMaxOut - p.bIn
    let bMinMatch := if bMaxMatch < p.bMinMatch then bMaxMatch else p.bMinMatch
    let realRatio := OrderMatcher.realRatioOf order isCkb2Udt ckbMiningFee
    if realRatio ≤ 0 then none
    else
      some
        { order := order
          isCkb2Udt := isCkb2Udt
          aScale := p.aScale
          bScale := p.bScale
          aIn := p.aIn
          bIn := p.bIn
          aMin := p.aMin
          bMinMatch := bMinMatch
          bMaxMatch := bMaxMatch
          bMaxOut := bMaxOut
          realRatio := realRatio }

/-- `OrderMatcher.create`: package output amounts as a `Match`, with the deltas
from the matcher's perspective depending on the direction. -/
def OrderMatcher.create (m : OrderMatcher) (aOut bOut : Int) : Match :=
  if m.isCkb2Udt then
    { ckbDelta := m.aIn - aOut
      udtDelta := m.bIn - bOut
      partials := [{ order := m.order, ckbOut := aOut, udtOut := bOut }] }
  else
    { ckbDelta := m.bIn - bOut
      udtDelta := m.aIn - aOut
      partials := [{ order := m.order, ckbOut := bOut, udtOut := aOut }] }

/-- `OrderMatcher.match` of the manager module (`match` is a Lean keyword):
empty below `bMinMatch`, full fill at or above `bMaxMatch`, otherwise partial. -/
def OrderMatcher.matchAllowance (m : OrderMatcher) (bAllowance : Int) : Match :=
  if bAllowance < m.bMinMatch then emptyMatch
  else if m.bMaxMatch ≤ bAllowance then m.create m.aMin m.bMaxOut
  else
    let bOut := m.bIn + bAllowance
    let aOut := nonDecreasing m.bScale m.aScale m.bIn m.aIn bOut
    m.create aOut bOut

/-- The cumulative-match update of `sequentialMatcher`: add the deltas and
concatenate the partials. -/
def Match.combine (acc m : Match) : Match :=
  { ckbDelta := acc.ckbDelta + m.ckbDelta
    udtDelta := acc.udtDelta + m.udtDelta
    partials := acc.partials ++ m.partials }

/-- Insertion step for sorting matchers by decreasing `realRatio`, modelling the
source's `sort((a, b) => b.realRatio - a.realRatio)`. -/
def insertByRatio (m : OrderMatcher) : List OrderMatcher → List OrderMatcher
  | [] => [m]
  | x :: xs =>
    if x.realRatio ≤ m.realRatio then m :: x :: xs else x :: insertByRatio m xs

/-- Sort matchers by decreasing `realRatio` (stable insertion sort). -/
def sortByRatio (l : List OrderMatcher) : List OrderMatcher :=
  l.foldr insertByRatio []

/-- The inner `for (let i = 0n; i < N; i++)` loop of `sequentialMatcher` over one
matcher. Arguments after the fuel (the remaining iteration count) are the loop
counter `i`, the cumulative `allowance` and the source's `curr` variable.
Returns the yielded matches, whether the loop ran to completion (false when the
matcher was abandoned by `continue loop`) and the final value of `curr`. -/
def matcherLoop (matcher : OrderMatcher) (acc : Match) (q r : Int) :
    Nat → Int → Int → Match → List Match × Bool × Match
  | 0, _, _, curr => ([], true, curr)
  | fuel + 1, i, allowance, curr =>
    let allowance' := allowance + (if i < r then q + 1 else q)
    let res := matcher.matchAllowance allowance'
    if res.partials.isEmpty then ([], false, curr)
    else
      let curr' := Match.combine acc res
      let out := matcherLoop matcher acc q r fuel (i + 1) allowance' curr'
      (curr' :: out.1, out.2.1, out.2.2)

/-- The outer `for (const matcher of matchers)` loop of `sequentialMatcher`,
threading the source's `acc` and `curr` variables and collecting the yields. -/
def seqOuter (allowanceStep : Int) :
    List OrderMatcher → Match → Match → List Match
  | [], _, _ => []
  | matcher :: rest, acc, curr =>
    let maxMatch := matcher.bMaxMatch
    let N := (maxMatch + allowanceStep - 1).tdiv allowanceStep
    let q := maxMatch.tdiv N
    let r := maxMatch.tmod N
    let out := matcherLoop matcher acc q r N.toNat 0 0 curr
    out.1 ++ seqOuter allowanceStep rest (if out.2.1 then out.2.2 else acc) out.2.2

/-- `OrderManager.sequentialMatcher`: the list of matches the generator yields,
in order. -/
def sequentialMatcher (orderPool : List OrderCell) (isCkb2Udt : Bool)
    (allowanceStep ckbMiningFee : Int) : List Match :=
  let matchers := sortByRatio (orderPool.filterMap fun o =>
    OrderMatcher.fromOrder o isCkb2Udt ckbMiningFee)
  emptyMatch :: seqOuter allowanceStep matchers emptyMatch emptyMatch

/-- `ValueComponents` from `@ickb/utils`: a CKB amount and a UDT amount. -/
structure ValueComponents where
  ckbValue : Int
  udtValue : Int
deriving DecidableEq

/-- `ExchangeRatio` from `@ickb/utils`: the scales of the midpoint rate. -/
structure ExchangeRatio where
  ckbScale : Int
  udtScale : Int
deriving DecidableEq

/-- Modelled from the spec: `BufferedGenerator` from `@ickb/utils` is not part of
this repository's sources. Per the spec it is a two-element look-ahead buffer
over a stream that can be advanced by the chosen index, consuming and refilling
up to size 2. `buffer` is the current window, `rest` the unread remainder. -/
structure BufferedGenerator where
  buffer : List Match
  rest : List Match
deriving DecidableEq

/-- Modelled from the spec: build the buffer over the yields of a generator,
pre-filling the two-element window. -/
def BufferedGenerator.ofList (items : List Match) : BufferedGenerator :=
  ⟨items.take 2, items.drop 2⟩

/-- Modelled from the spec: `next n` consumes `n` buffered items (none for the
initial `n = -1`) and refills the window up to size 2. -/
def BufferedGenerator.next (g : BufferedGenerator) (n : Int) : BufferedGenerator :=
  let remaining := g.buffer.drop n.toNat ++ g.rest
  ⟨remaining.take 2, remaining.drop 2⟩

/-- The mutable `best` record of `OrderManager.bestMatch`. -/
structure BestState where
  i : Int
  j : Int
  ckbDelta : Int
  udtDelta : Int
  partials : List MatchPartial
  ckbAllowance : Int
  udtAllowance : Int
  gain : Int
deriving DecidableEq

/-- The double loop of `bestMatch` over the entries of the two current buffers,
keeping the feasible pair of highest gain. The source prices the fee as
`ckbMiningFee * ccc.fixedPointFrom(partials.length)`; `ccc.fixedPointFrom` is
outside the repository and is modelled from the spec's `ckbFee =
ckbMiningFee · |partials|`. -/
def scanWindow (allowance : ValueComponents) (ckbScale udtScale ckbMiningFee : Int)
    (buf1 buf2 : List Match) (best0 : BestState) : BestState :=
  buf1.enum.foldl
    (fun best ic =>
      buf2.enum.foldl
        (fun best ju =>
          let ckbDelta := ic.2.ckbDelta + ju.2.ckbDelta
          let udtDelta := ic.2.udtDelta + ju.2.udtDelta
          let partials := ic.2.partials ++ ju.2.partials
          let ckbFee := ckbMiningFee * (partials.length : Int)
          let ckbAllowance := allowance.ckbValue + ckbDelta - ckbFee
          let udtAllowance := allowance.udtValue + udtDelta
          let gain := ckbDelta * ckbScale + udtDelta * udtScale
          if 0 ≤ ckbAllowance ∧ 0 ≤ udtAllowance ∧ best.gain < gain then
            { i := (ic.1 : Int)
              j := (ju.1 : Int)
              ckbDelta := ckbDelta
              udtDelta := udtDelta
              partials := partials
              ckbAllowance := ckbAllowance
              udtAllowance := udtAllowance
              gain := gain }
          else best)
        best)
    best0

/-- The `while (best.i !== 0 && best.j !== 0)` loop of `bestMatch`, with an
explicit fuel: the source loop terminates once neither window can improve the
best pair, and the fuel passed by `bestMatch` outlasts every advancing round. -/
def bestMatchLoop (allowance : ValueComponents)
    (ckbScale udtScale ckbMiningFee : Int) :
    Nat → BufferedGenerator → BufferedGenerator → BestState → BestState
  | 0, _, _, best => best
  | fuel + 1, g1, g2, best =>
    if best.i = 0 ∨ best.j = 0 then best
    else
      let g1' := g1.next best.i
      let g2' := g2.next best.j
      let best' := scanWindow allowance ckbScale udtScale ckbMiningFee
        g1'.buffer g2'.buffer { best with i := 0, j := 0 }
      bestMatchLoop allowance ckbScale udtScale ckbMiningFee fuel g1' g2' best'

/-- `OrderManager.bestMatch`. The optional JS parameters are explicit here:
`feeRate` defaults to `1000n` and `ckbAllowanceStep` to 1000 CKB at the call
sites the source gives them. -/
def bestMatch (orderPool : List OrderCell) (allowance : ValueComponents)
    (exchangeRate : ExchangeRatio) (feeRate ckbAllowanceStep : Int) : Match :=
  let orderSize := (orderPool.head?.map fun o => o.cell.occupiedSize).getD 0
  if orderSize = 0 then emptyMatch
  else
    let ckbMiningFee := ((36 + orderSize) * feeRate + 999).tdiv 1000
    let udtAllowanceStep :=
      (ckbAllowanceStep * exchangeRate.ckbScale + exchangeRate.udtScale - 1).tdiv
        exchangeRate.udtScale
    let ys1 := sequentialMatcher orderPool true ckbAllowanceStep ckbMiningFee
    let ys2 := sequentialMatcher orderPool false udtAllowanceStep ckbMiningFee
    let best0 : BestState :=
      { i := -1
        j := -1
        ckbDelta := 0
        udtDelta := 0
        partials := []
        ckbAllowance := allowance.ckbValue
        udtAllowance := allowance.udtValue
        gain := -(2 ^ 256) }
    let fin := bestMatchLoop allowance exchangeRate.ckbScale
      exchangeRate.udtScale ckbMiningFee (ys1.length + ys2.length + 8)
      (BufferedGenerator.ofList ys1) (BufferedGenerator.ofList ys2) best0
    { ckbDelta := fin.ckbDelta, udtDelta := fin.udtDelta, partials := fin.partials }

/-- A concrete single-direction CKB-to-UDT info: rate `1:1`, `ckbMinMatchLog = 0`. -/
def testInfo : Info :=
  { ckbToUdt := ⟨1, 1⟩, udtToCkb := ⟨0, 0⟩, ckbMinMatchLog := 0 }

/-- A concrete open CKB-to-UDT order: capacity 30, occupied 10, no UDT yet. -/
def testOrder : OrderCell :=
  { cell :=
      { outPoint := ⟨0, 0⟩
        cellOutput := { lock := ⟨1⟩, type := some ⟨2⟩, capacity := 30 }
        occupiedSize := 100 }
    data := { udtAmount := 0, master := .absolute ⟨0, 1⟩, info := testInfo }
    ckbOccupied := 10
    ckbUnoccupied := 20
    absTotal := 20
    absProgress := 0 }

/-- The matcher `OrderMatcher.from` builds for `testOrder` in the CKB-to-UDT
direction with no mining fee. -/
def testMatcher : OrderMatcher :=
  { order := testOrder
    isCkb2Udt := true
    aScale := 1
    bScale := 1
    aIn := 30
    bIn := 0
    aMin := 10
    bMinMatch := 1
    bMaxMatch := 20
    bMaxOut := 20
    realRatio := 1 }

/-- An info that differs from `testInfo` only in the CKB-to-UDT rate. -/
def infoAlt : Info :=
  { ckbToUdt := ⟨2, 1⟩, udtToCkb := ⟨0, 0⟩, ckbMinMatchLog := 0 }

/-- A cell identical to `testOrder` except for its outpoint and its info:
its lock, type, resolved master and monotone scalars all pass the descendant
checks while its info differs. -/
def infoDescendant : OrderCell :=
  { cell :=
      { outPoint := ⟨9, 0⟩
        cellOutput := { lock := ⟨1⟩, type := some ⟨2⟩, capacity := 30 }
        occupiedSize := 100 }
    data := { udtAmount := 0, master := .absolute ⟨0, 1⟩, info := infoAlt }
    ckbOccupied := 10
    ckbUnoccupied := 20
    absTotal := 20
    absProgress := 0 }

/-- A freshly minted order: relative master at distance `+1`, so its resolved
master is `(3, 1)`. -/
def mintOrigin : OrderCell :=
  { cell :=
      { outPoint := ⟨3, 0⟩
        cellOutput := { lock := ⟨1⟩, type := some ⟨2⟩, capacity := 30 }
        occupiedSize := 100 }
    data :=
      { udtAmount := 0
        master := .relative (List.replicate 32 0) 1
        info := testInfo }
    ckbOccupied := 10
    ckbUnoccupied := 20
    absTotal := 20
    absProgress := 0 }

/-- A descendant of `mintOrigin` carrying the master as an absolute outpoint,
with the same `absProgress` as the mint itself. -/
def absSibling : OrderCell :=
  { cell :=
      { outPoint := ⟨7, 2⟩
        cellOutput := { lock := ⟨1⟩, type := some ⟨2⟩, capacity := 30 }
        occupiedSize := 100 }
    data := { udtAmount := 0, master := .absolute ⟨3, 1⟩, info := testInfo }
    ckbOccupied := 10
    ckbUnoccupied := 20
    absTotal := 20
    absProgress := 0 }

/-- The invariants a matcher returned by `OrderMatcher.from` satisfies when the
order's amounts are in range and the mining fee is non-negative. -/
structure OrderMatcher.Valid (m : OrderMatcher) : Prop where
  aScale_pos : 0 < m.aScale
  bScale_pos : 0 < m.bScale
  aMin_nonneg : 0 ≤ m.aMin
  bIn_nonneg : 0 ≤ m.bIn
  aMin_lt_aIn : m.aMin < m.aIn
  bMinMatch_pos : 1 ≤ m.bMinMatch
  bMinMatch_le : m.bMinMatch ≤ m.bMaxMatch
  bMaxOut_eq : m.bMaxOut = nonDecreasing m.aScale m.bScale m.aIn m.bIn m.aMin
  bMaxMatch_eq : m.bMaxMatch = m.bMaxOut - m.bIn

/-- The two budget constraints `bestMatch` enforces on every candidate it
keeps. -/
def BudgetOk (allowance : ValueComponents) (ckbMiningFee : Int)
    (b : BestState) : Prop :=
  0 ≤ allowance.ckbValue + b.ckbDelta - ckbMiningFee * (b.partials.length : Int) ∧
    0 ≤ allowance.udtValue + b.udtDelta

/-- The size `|ckbDelta| + |udtDelta|` of a match. -/
def mu (x : Match) : Int :=
  |x.ckbDelta| + |x.udtDelta|

/-- The delta signs every match of one direction has, from the matcher's
perspective: in the CKB-to-UDT direction the matcher receives CKB and gives
UDT, and conversely. -/
def DeltaSign (d : Bool) (x : Match) : Prop :=
  if d then 0 ≤ x.ckbDelta ∧ x.udtDelta ≤ 0 else x.ckbDelta ≤ 0 ∧ 0 ≤ x.udtDelta

/-- The relation between consecutive yields of `sequentialMatcher`:
non-decreasing size and non-decreasing partial count. -/
def Step (x y : Match) : Prop :=
  mu x ≤ mu y ∧ x.partials.length ≤ y.partials.length

/-- The output pair `(aOut, bOut)` of a non-empty `match`. -/
def matchOuts (m : OrderMatcher) (bAllowance : Int) : Int × Int :=
  if m.bMaxMatch ≤ bAllowance then (m.aMin, m.bMaxOut)
  else
    (nonDecreasing m.bScale m.aScale m.bIn m.aIn (m.bIn + bAllowance),
      m.bIn + bAllowance)

/-- `Ratio.isEmpty` unfolded. -/
lemma Ratio.isEmpty_iff (r : Ratio) :
    r.isEmpty = true ↔ r.ckbScale = 0 ∧ r.udtScale = 0 := by
  simp [Ratio.isEmpty]

/-- `Ratio.isPopulated` unfolded. -/
lemma Ratio.isPopulated_iff (r : Ratio) :
    r.isPopulated = true ↔ 0 < r.ckbScale ∧ 0 < r.udtScale := by
  simp [Ratio.isPopulated]

/-- An empty ratio is not populated. -/
lemma Ratio.not_populated_of_empty {r : Ratio} (h : r.isEmpty = true) :
    ¬ r.isPopulated = true := by
  rw [Ratio.isEmpty_iff] at h
  rw [Ratio.isPopulated_iff]
  omega

/-- C1: `nonDecreasing` returns a value `b` that keeps the weighted cell value
non-decreasing, and `b` is the minimum integer doing so. -/
theorem nonDecreasing_spec (aScale bScale aIn bIn aOut : Int)
    (haS : 0 < aScale) (hbS : 0 < bScale) (haIn : 0 ≤ aIn) (hbIn : 0 ≤ bIn)
    (h0 : 0 ≤ aOut) (h1 : aOut ≤ aIn) :
    aScale * aIn + bScale * bIn ≤
        aScale * aOut + bScale * nonDecreasing aScale bScale aIn bIn aOut ∧
      ∀ b : Int,
        aScale * aIn + bScale * bIn ≤ aScale * aOut + bScale * b →
        nonDecreasing aScale bScale aIn bIn aOut ≤ b := by
  have hXa : 0 ≤ aScale * (aIn - aOut) := mul_nonneg haS.le (by linarith)
  have hXb : 0 ≤ bScale * bIn := mul_nonneg hbS.le hbIn
  have hY : 0 ≤ aScale * (aIn - aOut) + bScale * (bIn + 1) - 1 := by nlinarith
  have hnd : nonDecreasing aScale bScale aIn bIn aOut =
      (aScale * (aIn - aOut) + bScale * (bIn + 1) - 1) / bScale := by
    unfold nonDecreasing
    exact Int.tdiv_eq_ediv hY hbS.le
  constructor
  · have h2 :=
      Int.ediv_add_emod (aScale * (aIn - aOut) + bScale * (bIn + 1) - 1) bScale
    have h3 :=
      Int.emod_lt_of_pos (aScale * (aIn - aOut) + bScale * (bIn + 1) - 1) hbS
    rw [hnd]
    nlinarith [h2, h3]
  · intro b hb
    rw [hnd]
    have hlt : (aScale * (aIn - aOut) + bScale * (bIn + 1) - 1) / bScale < b + 1 := by
      rw [Int.ediv_lt_iff_lt_mul hbS]
      nlinarith [hb]
    omega

/-- C1 witness: the spec's concrete rounding scenario at
`(aScale, bScale, aIn, bIn, aOut) = (3, 7, 100, 50, 40)`. -/
theorem nonDecreasing_spec_witness :
    (3 : Int) * 100 + 7 * 50 ≤ 3 * 40 + 7 * nonDecreasing 3 7 100 50 40 ∧
      nonDecreasing 3 7 100 50 40 ≤ 76 :=
  ⟨(nonDecreasing_spec 3 7 100 50 40 (by decide) (by decide) (by decide)
      (by decide) (by decide) (by decide)).1,
    (nonDecreasing_spec 3 7 100 50 40 (by decide) (by decide) (by decide)
      (by decide) (by decide) (by decide)).2 76 (by decide)⟩

/-- C8: `Info.validate` succeeds exactly when `ckbMinMatchLog` lies in `[0, 64]`
and either exactly one ratio is populated while the other is empty, or both are
populated and the round-trip does not extract value. -/
theorem info_validate_iff (i : Info) :
    i.validate = Except.ok () ↔
      0 ≤ i.ckbMinMatchLog ∧ i.ckbMinMatchLog ≤ 64 ∧
        ((i.ckbToUdt.isPopulated = true ∧ i.udtToCkb.isEmpty = true) ∨
          (i.ckbToUdt.isEmpty = true ∧ i.udtToCkb.isPopulated = true) ∨
          (i.ckbToUdt.isPopulated = true ∧ i.udtToCkb.isPopulated = true ∧
            i.ckbToUdt.udtScale * i.udtToCkb.ckbScale ≤
              i.ckbToUdt.ckbScale * i.udtToCkb.udtScale)) := by
  unfold Info.validate
  split_ifs with h1 h2 h3 h4 h5 h6 h7
  · exact iff_of_false (by simp) (by rintro ⟨ha, hb, -⟩; omega)
  · exact iff_of_true rfl ⟨by omega, by omega, Or.inr (Or.inl ⟨h2, h3⟩)⟩
  · refine iff_of_false (by simp) ?_
    rintro ⟨-, -, ⟨hpop, -⟩ | ⟨-, hpop⟩ | ⟨hpop, -, -⟩⟩
    · exact Ratio.not_populated_of_empty h2 hpop
    · exact h3 hpop
    · exact Ratio.not_populated_of_empty h2 hpop
  · exact iff_of_true rfl ⟨by omega, by omega, Or.inl ⟨h5, h4⟩⟩
  · refine iff_of_false (by simp) ?_
    rintro ⟨-, -, ⟨hpop, -⟩ | ⟨hemp, -⟩ | ⟨hpop, -, -⟩⟩
    · exact h5 hpop
    · exact h2 hemp
    · exact h5 hpop
  · refine iff_of_false (by simp) ?_
    rintro ⟨-, -, ⟨-, hemp⟩ | ⟨hemp, -⟩ | ⟨hpop1, hpop2, -⟩⟩
    · exact h4 hemp
    · exact h2 hemp
    · rcases h6 with h | h
      · exact h hpop1
      · exact h hpop2
  · refine iff_of_false (by simp) ?_
    rintro ⟨-, -, ⟨-, hemp⟩ | ⟨hemp, -⟩ | ⟨-, -, hle⟩⟩
    · exact h4 hemp
    · exact h2 hemp
    · exact absurd h7 (not_lt.mpr hle)
  · push_neg at h6
    exact iff_of_true rfl ⟨by omega, by omega,
      Or.inr (Or.inr ⟨h6.1, h6.2, not_lt.mp h7⟩)⟩

/-- C9: the sign of `Ratio.compare` matches the cross-product comparison in all
three branches, fast paths included. -/
theorem ratio_compare_iff (a b : Ratio) (ha1 : 0 < a.ckbScale)
    (ha2 : 0 < a.udtScale) (hb1 : 0 < b.ckbScale) (hb2 : 0 < b.udtScale) :
    (Ratio.compare a b < 0 ↔ a.ckbScale * b.udtScale < b.ckbScale * a.udtScale) ∧
      (Ratio.compare a b = 0 ↔ a.ckbScale * b.udtScale = b.ckbScale * a.udtScale) ∧
      (0 < Ratio.compare a b ↔ b.ckbScale * a.udtScale < a.ckbScale * b.udtScale) := by
  unfold Ratio.compare
  split_ifs with h1 h2
  · rw [← h1]
    refine ⟨?_, ?_, ?_⟩
    · rw [sub_neg, mul_lt_mul_right ha2]
    · rw [sub_eq_zero]
      constructor
      · intro h; rw [h]
      · intro h; exact mul_right_cancel₀ (ne_of_gt ha2) h
    · rw [sub_pos, mul_lt_mul_right ha2]
  · rw [← h2]
    refine ⟨?_, ?_, ?_⟩
    · rw [sub_neg, mul_lt_mul_left ha1]
    · rw [sub_eq_zero]
      constructor
      · intro h; rw [h]
      · intro h; exact mul_left_cancel₀ (ne_of_gt ha1) h
    · rw [sub_pos, mul_lt_mul_left ha1]
  · exact ⟨sub_neg, sub_eq_zero, sub_pos⟩

/-- C9 witness: concrete ratios `2:3` and `1:2`, general-branch comparison. -/
theorem ratio_compare_iff_witness :
    (Ratio.compare ⟨2, 3⟩ ⟨1, 2⟩ < 0 ↔
        (2 : Int) * 2 < 1 * 3) ∧
      (Ratio.compare ⟨2, 3⟩ ⟨1, 2⟩ = 0 ↔ (2 : Int) * 2 = 1 * 3) ∧
      (0 < Ratio.compare ⟨2, 3⟩ ⟨1, 2⟩ ↔ (1 : Int) * 3 < 2 * 2) :=
  ratio_compare_iff ⟨2, 3⟩ ⟨1, 2⟩ (by decide) (by decide) (by decide) (by decide)

/-- C2: at a concrete pair of cells whose infos differ while every other
descendant check passes, the source's `validate` still accepts, because it
compares the origin's info with itself. -/
theorem validate_accepts_different_info :
    testOrder.data.info ≠ infoDescendant.data.info ∧
      testOrder.cell.outPoint ≠ infoDescendant.cell.outPoint ∧
      testOrder.cell.cellOutput.lock = infoDescendant.cell.cellOutput.lock ∧
      testOrder.cell.cellOutput.type = infoDescendant.cell.cellOutput.type ∧
      infoDescendant.getMaster = testOrder.getMaster ∧
      testOrder.absTotal ≤ infoDescendant.absTotal ∧
      testOrder.absProgress ≤ infoDescendant.absProgress ∧
      testOrder.validate infoDescendant = Except.ok () :=
  ⟨by decide, by decide, by decide, by decide, by decide, by decide, by decide,
    rfl⟩

/-- C3 counterexample: two validating descendants with equal `absProgress`, one
mint (the origin itself) and one with an absolute master; `resolve` returns the
mint one in both list orders, not the absolute one the claim predicts. -/
theorem resolve_tie_counterexample :
    mintOrigin.isValid mintOrigin = true ∧
      mintOrigin.isValid absSibling = true ∧
      mintOrigin.absProgress = absSibling.absProgress ∧
      mintOrigin.data.isMint = true ∧
      absSibling.data.isMint = false ∧
      mintOrigin ≠ absSibling ∧
      mintOrigin.resolve [mintOrigin, absSibling] ≠ some absSibling ∧
      mintOrigin.resolve [absSibling, mintOrigin] ≠ some absSibling ∧
      mintOrigin.resolve [mintOrigin, absSibling] = some mintOrigin ∧
      mintOrigin.resolve [absSibling, mintOrigin] = some mintOrigin := by
  decide

/-- C3 amended: with two validating descendants of equal `absProgress`, one with
a relative (mint) master and one with an absolute master, `resolve` returns the
mint one, whichever order the list presents them in. -/
theorem resolve_tie_prefers_mint (o d1 d2 : OrderCell)
    (h1 : o.isValid d1 = true) (h2 : o.isValid d2 = true)
    (hp : d1.absProgress = d2.absProgress)
    (hm1 : d1.data.isMint = true) (hm2 : d2.data.isMint = false) :
    o.resolve [d1, d2] = some d1 ∧ o.resolve [d2, d1] = some d1 := by
  unfold OrderCell.resolve
  simp [h1, h2, hp, hm1, hm2]

/-- C3 witness: the amended tie-break at the concrete mint/absolute pair. -/
theorem resolve_tie_prefers_mint_witness :
    mintOrigin.resolve [mintOrigin, absSibling] = some mintOrigin ∧
      mintOrigin.resolve [absSibling, mintOrigin] = some mintOrigin :=
  resolve_tie_prefers_mint mintOrigin mintOrigin absSibling (by decide)
    (by decide) (by decide) (by decide) (by decide)

/-- `nonDecreasing` exceeds `bIn` whenever something is left to give
(`aMin < aIn`) and the scales are positive. -/
lemma nonDecreasing_lower (aScale bScale aIn bIn aMin : Int)
    (haS : 0 < aScale) (hbS : 0 < bScale) (hbIn : 0 ≤ bIn) (hlt : aMin < aIn) :
    bIn + 1 ≤ nonDecreasing aScale bScale aIn bIn aMin := by
  have hY : 0 ≤ aScale * (aIn - aMin) + bScale * (bIn + 1) - 1 := by nlinarith
  unfold nonDecreasing
  rw [Int.tdiv_eq_ediv hY hbS.le, Int.le_ediv_iff_mul_le hbS]
  nlinarith

/-- `getCkbMinMatch` is at least one. -/
lemma getCkbMinMatch_pos (i : Info) : 1 ≤ i.getCkbMinMatch := by
  have := pow_pos (show (0 : Int) < 2 by norm_num) i.ckbMinMatchLog.toNat
  unfold Info.getCkbMinMatch
  omega

/-- The unclamped `bMinMatch` of the parameter block is at least one when both
scales are positive. -/
lemma params_bMinMatch_pos (o : OrderCell) (d : Bool) (fee : Int)
    (haS : 0 < (OrderMatcher.params o d fee).aScale)
    (hbS : 0 < (OrderMatcher.params o d fee).bScale) :
    1 ≤ (OrderMatcher.params o d fee).bMinMatch := by
  have hg := getCkbMinMatch_pos o.data.info
  cases d <;> simp only [OrderMatcher.params, if_true, if_false, Bool.false_eq_true,
    reduceIte] at haS hbS ⊢
  · omega
  · have hY : 0 ≤ o.data.info.getCkbMinMatch * o.data.info.ckbToUdt.udtScale +
        o.data.info.ckbToUdt.ckbScale - 1 := by nlinarith
    rw [Int.tdiv_eq_ediv hY haS.le, Int.le_ediv_iff_mul_le haS]
    nlinarith

/-- Sign facts of the parameter block under the order-cell invariants. -/
lemma params_nonneg (o : OrderCell) (d : Bool) (fee : Int)
    (hfee : 0 ≤ fee) (hudt : 0 ≤ o.data.udtAmount) (hunocc : 0 ≤ o.ckbUnoccupied)
    (hcap : o.ckbUnoccupied ≤ o.cell.cellOutput.capacity) :
    0 ≤ (OrderMatcher.params o d fee).aMin ∧
      0 ≤ (OrderMatcher.params o d fee).bIn ∧
      0 ≤ (OrderMatcher.params o d fee).aMiningFee := by
  cases d <;>
    simp only [OrderMatcher.params, if_true, if_false, Bool.false_eq_true,
      reduceIte, OrderCell.ckbValue, OrderCell.udtValue] <;>
    refine ⟨by omega, by omega, by omega⟩

/-- The fields `OrderMatcher.from` packs into the matcher it returns. -/
lemma fromOrder_some_eq (o : OrderCell) (d : Bool) (fee : Int) (m : OrderMatcher)
    (hm : OrderMatcher.fromOrder o d fee = some m) :
    m.order = o ∧ m.isCkb2Udt = d ∧
      m.aScale = (OrderMatcher.params o d fee).aScale ∧
      m.bScale = (OrderMatcher.params o d fee).bScale ∧
      m.aIn = (OrderMatcher.params o d fee).aIn ∧
      m.bIn = (OrderMatcher.params o d fee).bIn ∧
      m.aMin = (OrderMatcher.params o d fee).aMin ∧
      m.bMaxOut = nonDecreasing m.aScale m.bScale m.aIn m.bIn m.aMin ∧
      m.bMaxMatch = m.bMaxOut - m.bIn ∧
      ((m.bMinMatch = m.bMaxMatch ∨
          m.bMinMatch = (OrderMatcher.params o d fee).bMinMatch) ∧
        m.bMinMatch ≤ m.bMaxMatch) ∧
      (OrderMatcher.params o d fee).aMin + (OrderMatcher.params o d fee).aMiningFee <
        (OrderMatcher.params o d fee).aIn ∧
      0 < (OrderMatcher.params o d fee).aScale ∧
      0 < (OrderMatcher.params o d fee).bScale := by
  simp only [OrderMatcher.fromOrder] at hm
  split_ifs at hm with hg1 hg2 hmin
  · push_neg at hg1
    rw [Option.some.injEq] at hm
    subst hm
    exact ⟨rfl, rfl, rfl, rfl, rfl, rfl, rfl, rfl, rfl, ⟨Or.inl rfl, le_refl _⟩,
      hg1.1, hg1.2.1, hg1.2.2⟩
  · push_neg at hg1
    rw [Option.some.injEq] at hm
    subst hm
    exact ⟨rfl, rfl, rfl, rfl, rfl, rfl, rfl, rfl, rfl,
      ⟨Or.inr rfl, not_lt.mp hmin⟩, hg1.1, hg1.2.1, hg1.2.2⟩

/-- One yield of `Valid`: the maximal match amount is positive. -/
lemma OrderMatcher.Valid.bMaxMatch_pos {m : OrderMatcher} (hv : m.Valid) :
    1 ≤ m.bMaxMatch :=
  le_trans hv.bMinMatch_pos hv.bMinMatch_le

/-- A matcher built by `OrderMatcher.from` from an order cell with in-range
amounts and a non-negative mining fee satisfies all the `Valid` invariants. -/
lemma fromOrder_valid (o : OrderCell) (d : Bool) (fee : Int) (m : OrderMatcher)
    (hfee : 0 ≤ fee) (hudt : 0 ≤ o.data.udtAmount) (hunocc : 0 ≤ o.ckbUnoccupied)
    (hcap : o.ckbUnoccupied ≤ o.cell.cellOutput.capacity)
    (hm : OrderMatcher.fromOrder o d fee = some m) :
    m.Valid ∧ m.isCkb2Udt = d ∧ m.order = o := by
  obtain ⟨hord, hdir, hsa, hsb, hain, hbin, hamin, hmaxout, hmaxeq,
    ⟨hminor, hminle⟩, hguard, haspos, hbspos⟩ := fromOrder_some_eq o d fee m hm
  obtain ⟨hpmin, hpbin, hpfee⟩ := params_nonneg o d fee hfee hudt hunocc hcap
  have haS : 0 < m.aScale := hsa ▸ haspos
  have hbS : 0 < m.bScale := hsb ▸ hbspos
  have haMin : 0 ≤ m.aMin := hamin ▸ hpmin
  have hbIn : 0 ≤ m.bIn := hbin ▸ hpbin
  have haIn : m.aMin < m.aIn := by rw [hamin, hain]; omega
  have hmax1 : 1 ≤ m.bMaxMatch := by
    have := nonDecreasing_lower m.aScale m.bScale m.aIn m.bIn m.aMin haS hbS
      hbIn haIn
    omega
  have hmin1 : 1 ≤ m.bMinMatch := by
    rcases hminor with h | h
    · omega
    · have := params_bMinMatch_pos o d fee haspos hbspos
      omega
  exact ⟨⟨haS, hbS, haMin, hbIn, haIn, hmin1, hminle, hmaxout, hmaxeq⟩, hdir,
    hord⟩

/-- C5: `OrderMatcher.from` returns nothing exactly when one of the four failure
conditions on the direction-derived parameters holds; in every other case it
returns a matcher. -/
theorem fromOrder_none_iff (o : OrderCell) (isCkb2Udt : Bool)
    (ckbMiningFee : Int) :
    OrderMatcher.fromOrder o isCkb2Udt ckbMiningFee = none ↔
      ((OrderMatcher.params o isCkb2Udt ckbMiningFee).aIn ≤
          (OrderMatcher.params o isCkb2Udt ckbMiningFee).aMin +
            (OrderMatcher.params o isCkb2Udt ckbMiningFee).aMiningFee ∨
        (OrderMatcher.params o isCkb2Udt ckbMiningFee).aScale ≤ 0 ∨
        (OrderMatcher.params o isCkb2Udt ckbMiningFee).bScale ≤ 0 ∨
        OrderMatcher.realRatioOf o isCkb2Udt ckbMiningFee ≤ 0) := by
  simp only [OrderMatcher.fromOrder]
  split_ifs with hg1 hg2
  · exact iff_of_true rfl (by tauto)
  · exact iff_of_true rfl (Or.inr (Or.inr (Or.inr hg2)))
  · push_neg at hg1
    refine iff_of_false (by simp) ?_
    rintro (h | h | h | h)
    · exact absurd h (not_le.mpr hg1.1)
    · exact absurd h (not_le.mpr hg1.2.1)
    · exact absurd h (not_le.mpr hg1.2.2)
    · exact hg2 h

/-- C4: for a successfully constructed matcher, `match` returns the empty match
below `bMinMatch`, the full fill at `(aMin, bMaxOut)` at or above `bMaxMatch`,
and otherwise the partial fill at `bOut = bIn + bAllowance`,
`aOut = nonDecreasing(bScale, aScale, bIn, aIn, bOut)`. -/
theorem matchAllowance_cases (o : OrderCell) (isCkb2Udt : Bool)
    (ckbMiningFee : Int) (m : OrderMatcher)
    (hm : OrderMatcher.fromOrder o isCkb2Udt ckbMiningFee = some m)
    (bAllowance : Int) (hb : 0 ≤ bAllowance) :
    (bAllowance < m.bMinMatch → m.matchAllowance bAllowance = emptyMatch) ∧
      (m.bMaxMatch ≤ bAllowance →
        m.matchAllowance bAllowance = m.create m.aMin m.bMaxOut) ∧
      (m.bMinMatch ≤ bAllowance → bAllowance < m.bMaxMatch →
        m.matchAllowance bAllowance =
          m.create
            (nonDecreasing m.bScale m.aScale m.bIn m.aIn (m.bIn + bAllowance))
            (m.bIn + bAllowance)) := by
  have hle : m.bMinMatch ≤ m.bMaxMatch :=
    (fromOrder_some_eq o isCkb2Udt ckbMiningFee m hm).2.2.2.2.2.2.2.2.2.1.2
  refine ⟨?_, ?_, ?_⟩
  · intro h
    unfold OrderMatcher.matchAllowance
    rw [if_pos h]
  · intro h
    unfold OrderMatcher.matchAllowance
    rw [if_neg (not_lt.mpr (le_trans hle h)), if_pos h]
  · intro h1 h2
    unfold OrderMatcher.matchAllowance
    rw [if_neg (not_lt.mpr h1), if_neg (not_le.mpr h2)]

/-- C4 witness: the concrete matcher of `testOrder`, partial fill at
allowance 5. -/
theorem matchAllowance_cases_witness :
    testMatcher.matchAllowance 5 =
      testMatcher.create
        (nonDecreasing testMatcher.bScale testMatcher.aScale testMatcher.bIn
          testMatcher.aIn (testMatcher.bIn + 5))
        (testMatcher.bIn + 5) :=
  (matchAllowance_cases testOrder true 0 testMatcher (by decide) 5
    (by decide)).2.2 (by decide) (by decide)

/-- C10: once the allowance reaches `bMinMatch`, the returned match carries
exactly one partial, and its order is the matcher's own order cell. -/
theorem matchAllowance_single_partial (o : OrderCell) (isCkb2Udt : Bool)
    (ckbMiningFee : Int) (m : OrderMatcher)
    (hm : OrderMatcher.fromOrder o isCkb2Udt ckbMiningFee = some m)
    (bAllowance : Int) (hb : m.bMinMatch ≤ bAllowance) :
    (m.matchAllowance bAllowance).partials.length = 1 ∧
      ∀ p ∈ (m.matchAllowance bAllowance).partials, p.order = m.order := by
  unfold OrderMatcher.matchAllowance
  rw [if_neg (not_lt.mpr hb)]
  split_ifs with hfull
  · unfold OrderMatcher.create
    split_ifs with hdir <;> simp
  · unfold OrderMatcher.create
    split_ifs with hdir <;> simp

/-- C10 witness: the concrete matcher of `testOrder` at allowance 5. -/
theorem matchAllowance_single_partial_witness :
    (testMatcher.matchAllowance 5).partials.length = 1 ∧
      ∀ p ∈ (testMatcher.matchAllowance 5).partials, p.order = testMatcher.order :=
  matchAllowance_single_partial testOrder true 0 testMatcher (by decide) 5
    (by decide)

/-- A fold preserves any invariant its step preserves. -/
lemma foldl_preserve {α β : Type} (P : β → Prop) (f : β → α → β) :
    ∀ (l : List α) (b : β), P b → (∀ b x, P b → P (f b x)) → P (l.foldl f b)
  | [], _, hb, _ => hb
  | x :: xs, b, hb, hf => foldl_preserve P f xs (f b x) (hf b x hb) hf

/-- The window scan of `bestMatch` preserves the budget constraints: a candidate
replaces the best only after passing exactly these checks. -/
lemma scanWindow_budget (allowance : ValueComponents)
    (ckbScale udtScale ckbMiningFee : Int) (buf1 buf2 : List Match)
    (best0 : BestState) (h : BudgetOk allowance ckbMiningFee best0) :
    BudgetOk allowance ckbMiningFee
      (scanWindow allowance ckbScale udtScale ckbMiningFee buf1 buf2 best0) := by
  unfold scanWindow
  refine foldl_preserve _ _ _ _ h ?_
  intro b ic hb
  refine foldl_preserve _ _ _ _ hb ?_
  intro b' ju hb'
  dsimp only
  split_ifs with hc
  · exact ⟨hc.1, hc.2.1⟩
  · exact hb'

/-- Every round of the `bestMatch` loop preserves the budget constraints. -/
lemma bestMatchLoop_budget (allowance : ValueComponents)
    (ckbScale udtScale ckbMiningFee : Int) :
    ∀ (fuel : Nat) (g1 g2 : BufferedGenerator) (best : BestState),
      BudgetOk allowance ckbMiningFee best →
      BudgetOk allowance ckbMiningFee
        (bestMatchLoop allowance ckbScale udtScale ckbMiningFee fuel g1 g2 best)
  | 0, _, _, _, hb => hb
  | fuel + 1, g1, g2, best, hb => by
    unfold bestMatchLoop
    split_ifs with hij
    · exact hb
    · exact bestMatchLoop_budget allowance ckbScale udtScale ckbMiningFee fuel
        _ _ _ (scanWindow_budget _ _ _ _ _ _ _ hb)

/-- C7: the match returned by `bestMatch` respects both budgets: the CKB
allowance covers the CKB delta plus the per-partial mining fee, and the UDT
allowance covers the UDT delta. -/
theorem bestMatch_respects_budgets (orderPool : List OrderCell)
    (allowance : ValueComponents) (exchangeRate : ExchangeRatio)
    (feeRate ckbAllowanceStep : Int)
    (hckb : 0 ≤ allowance.ckbValue) (hudt : 0 ≤ allowance.udtValue) :
    0 ≤ allowance.ckbValue +
        (bestMatch orderPool allowance exchangeRate feeRate
          ckbAllowanceStep).ckbDelta -
        ((36 + (orderPool.head?.map fun o => o.cell.occupiedSize).getD 0) *
            feeRate + 999).tdiv 1000 *
          ((bestMatch orderPool allowance exchangeRate feeRate
            ckbAllowanceStep).partials.length : Int) ∧
      0 ≤ allowance.udtValue +
        (bestMatch orderPool allowance exchangeRate feeRate
          ckbAllowanceStep).udtDelta := by
  simp only [bestMatch]
  split_ifs with hsz
  · refine ⟨?_, ?_⟩ <;> simp [emptyMatch] <;> omega
  · have h0 : BudgetOk allowance
        (((36 + (orderPool.head?.map fun o => o.cell.occupiedSize).getD 0) *
          feeRate + 999).tdiv 1000)
        { i := -1
          j := -1
          ckbDelta := 0
          udtDelta := 0
          partials := []
          ckbAllowance := allowance.ckbValue
          udtAllowance := allowance.udtValue
          gain := -(2 ^ 256) } := by
      constructor <;> simp <;> omega
    exact bestMatchLoop_budget allowance exchangeRate.ckbScale
      exchangeRate.udtScale _ _ _ _ _ h0

/-- C7 witness: concrete pool, allowances `(5, 5)`. -/
theorem bestMatch_respects_budgets_witness :
    0 ≤ (5 : Int) +
        (bestMatch [testOrder] ⟨5, 5⟩ ⟨1, 1⟩ 1000 10).ckbDelta -
        ((36 + (([testOrder].head?.map fun o => o.cell.occupiedSize).getD 0)) *
            1000 + 999).tdiv 1000 *
          ((bestMatch [testOrder] ⟨5, 5⟩ ⟨1, 1⟩ 1000 10).partials.length : Int) ∧
      0 ≤ (5 : Int) + (bestMatch [testOrder] ⟨5, 5⟩ ⟨1, 1⟩ 1000 10).udtDelta :=
  bestMatch_respects_budgets [testOrder] ⟨5, 5⟩ ⟨1, 1⟩ 1000 10 (by decide)
    (by decide)

/-- The size of a match is non-negative. -/
lemma mu_nonneg (x : Match) : 0 ≤ mu x :=
  add_nonneg (abs_nonneg _) (abs_nonneg _)

/-- Above `bMinMatch`, `match` returns `create` of its output pair. -/
lemma matchAllowance_eq_create (m : OrderMatcher) (a : Int)
    (h : m.bMinMatch ≤ a) :
    m.matchAllowance a = m.create (matchOuts m a).1 (matchOuts m a).2 := by
  unfold OrderMatcher.matchAllowance matchOuts
  rw [if_neg (not_lt.mpr h)]
  split_ifs with hfull <;> rfl

/-- `create` always emits exactly one partial. -/
lemma create_partials_length (m : OrderMatcher) (aOut bOut : Int) :
    (m.create aOut bOut).partials.length = 1 := by
  unfold OrderMatcher.create
  split_ifs <;> rfl

/-- A match is empty exactly when the allowance is below `bMinMatch`. -/
lemma matchAllowance_empty_iff (m : OrderMatcher) (a : Int) :
    (m.matchAllowance a).partials.isEmpty = true ↔ a < m.bMinMatch := by
  unfold OrderMatcher.matchAllowance
  split_ifs with h1 h2
  · exact iff_of_true (by rfl) h1
  · refine iff_of_false ?_ h1
    unfold OrderMatcher.create
    split_ifs <;> simp
  · refine iff_of_false ?_ h1
    unfold OrderMatcher.create
    split_ifs <;> simp

/-- Delta signs, size and partial count of `create`, given in-range outputs. -/
lemma create_measure (m : OrderMatcher) (aOut bOut : Int)
    (h1 : aOut ≤ m.aIn) (h2 : m.bIn ≤ bOut) :
    DeltaSign m.isCkb2Udt (m.create aOut bOut) ∧
      mu (m.create aOut bOut) = (m.aIn - aOut) + (bOut - m.bIn) ∧
      (m.create aOut bOut).partials.length = 1 := by
  unfold OrderMatcher.create DeltaSign mu
  split_ifs with hdir
  · refine ⟨⟨show (0 : Int) ≤ m.aIn - aOut by linarith,
      show m.bIn - bOut ≤ (0 : Int) by linarith⟩, ?_, rfl⟩
    show |m.aIn - aOut| + |m.bIn - bOut| = m.aIn - aOut + (bOut - m.bIn)
    rw [abs_of_nonneg (by linarith), abs_of_nonpos (by linarith)]
    ring
  · refine ⟨⟨show m.bIn - bOut ≤ (0 : Int) by linarith,
      show (0 : Int) ≤ m.aIn - aOut by linarith⟩, ?_, rfl⟩
    show |m.bIn - bOut| + |m.aIn - aOut| = m.aIn - aOut + (bOut - m.bIn)
    rw [abs_of_nonpos (by linarith), abs_of_nonneg (by linarith)]
    ring

/-- Combining sign-aligned matches adds their sizes and partial counts. -/
lemma combine_measure (d : Bool) (x y : Match) (hx : DeltaSign d x)
    (hy : DeltaSign d y) :
    DeltaSign d (Match.combine x y) ∧
      mu (Match.combine x y) = mu x + mu y ∧
      (Match.combine x y).partials.length =
        x.partials.length + y.partials.length := by
  unfold DeltaSign mu Match.combine at *
  cases d
  · simp only [Bool.false_eq_true, if_false] at hx hy ⊢
    refine ⟨⟨show x.ckbDelta + y.ckbDelta ≤ (0 : Int) by linarith [hx.1, hy.1],
      show (0 : Int) ≤ x.udtDelta + y.udtDelta by linarith [hx.2, hy.2]⟩, ?_,
      by simp⟩
    show |x.ckbDelta + y.ckbDelta| + |x.udtDelta + y.udtDelta| =
      |x.ckbDelta| + |x.udtDelta| + (|y.ckbDelta| + |y.udtDelta|)
    rw [abs_of_nonpos (add_nonpos hx.1 hy.1), abs_of_nonneg (add_nonneg hx.2 hy.2),
      abs_of_nonpos hx.1, abs_of_nonneg hx.2, abs_of_nonpos hy.1,
      abs_of_nonneg hy.2]
    ring
  · simp only [if_true] at hx hy ⊢
    refine ⟨⟨show (0 : Int) ≤ x.ckbDelta + y.ckbDelta by linarith [hx.1, hy.1],
      show x.udtDelta + y.udtDelta ≤ (0 : Int) by linarith [hx.2, hy.2]⟩, ?_,
      by simp⟩
    show |x.ckbDelta + y.ckbDelta| + |x.udtDelta + y.udtDelta| =
      |x.ckbDelta| + |x.udtDelta| + (|y.ckbDelta| + |y.udtDelta|)
    rw [abs_of_nonneg (add_nonneg hx.1 hy.1), abs_of_nonpos (add_nonpos hx.2 hy.2),
      abs_of_nonneg hx.1, abs_of_nonpos hx.2, abs_of_nonneg hy.1,
      abs_of_nonpos hy.2]
    ring

/-- `nonDecreasing` is a ceiling, so `bScale` times it stays below the rounded
numerator. -/
lemma nonDecreasing_mul_le (aScale bScale aIn bIn aMin : Int)
    (haS : 0 < aScale) (hbS : 0 < bScale) (hbIn : 0 ≤ bIn) (hlt : aMin < aIn) :
    bScale * nonDecreasing aScale bScale aIn bIn aMin ≤
      aScale * (aIn - aMin) + bScale * bIn + bScale - 1 := by
  have hY : 0 ≤ aScale * (aIn - aMin) + bScale * (bIn + 1) - 1 := by nlinarith
  unfold nonDecreasing
  rw [Int.tdiv_eq_ediv hY hbS.le]
  have := Int.ediv_mul_le (aScale * (aIn - aMin) + bScale * (bIn + 1) - 1)
    (ne_of_gt hbS)
  nlinarith [this]

/-- In the partial branch the rounding numerator stays above
`aScale * (aMin + 1)`. -/
lemma partial_num_bounds (m : OrderMatcher) (hv : m.Valid) (a : Int)
    (h2 : a < m.bMaxMatch) :
    m.aScale * (m.aMin + 1) ≤
      m.bScale * (m.bIn - (m.bIn + a)) + m.aScale * (m.aIn + 1) - 1 := by
  have hW := nonDecreasing_mul_le m.aScale m.bScale m.aIn m.bIn m.aMin
    hv.aScale_pos hv.bScale_pos hv.bIn_nonneg hv.aMin_lt_aIn
  rw [← hv.bMaxOut_eq] at hW
  have ha' : a ≤ m.bMaxOut - m.bIn - 1 := by
    have := hv.bMaxMatch_eq
    omega
  nlinarith [mul_le_mul_of_nonneg_left ha' hv.bScale_pos.le, hW]

/-- Bounds of the partial-branch `aOut`: strictly above `aMin` and at most
`aIn`. -/
lemma partial_aOut_bounds (m : OrderMatcher) (hv : m.Valid) (a : Int)
    (h1 : m.bMinMatch ≤ a) (h2 : a < m.bMaxMatch) :
    m.aMin + 1 ≤ nonDecreasing m.bScale m.aScale m.bIn m.aIn (m.bIn + a) ∧
      nonDecreasing m.bScale m.aScale m.bIn m.aIn (m.bIn + a) ≤ m.aIn := by
  have hnum := partial_num_bounds m hv a h2
  have hY : 0 ≤ m.bScale * (m.bIn - (m.bIn + a)) + m.aScale * (m.aIn + 1) - 1 := by
    nlinarith [hv.aScale_pos, hv.aMin_nonneg]
  unfold nonDecreasing
  rw [Int.tdiv_eq_ediv hY hv.aScale_pos.le]
  constructor
  · rw [Int.le_ediv_iff_mul_le hv.aScale_pos]
    nlinarith [hnum]
  · have hlt : (m.bScale * (m.bIn - (m.bIn + a)) + m.aScale * (m.aIn + 1) - 1) /
        m.aScale < m.aIn + 1 := by
      rw [Int.ediv_lt_iff_lt_mul hv.aScale_pos]
      nlinarith [hv.bScale_pos, hv.bMinMatch_pos, h1]
    omega

/-- Bounds of the outputs of a non-empty match: `aOut` between `aMin` and
`aIn`, `bOut` between `bIn` and `bMaxOut`. -/
lemma matchOuts_le (m : OrderMatcher) (hv : m.Valid) (a : Int)
    (h1 : m.bMinMatch ≤ a) :
    m.aMin ≤ (matchOuts m a).1 ∧ (matchOuts m a).1 ≤ m.aIn ∧
      m.bIn ≤ (matchOuts m a).2 ∧ (matchOuts m a).2 ≤ m.bMaxOut := by
  unfold matchOuts
  split_ifs with hfull
  · dsimp only
    refine ⟨le_refl _, hv.aMin_lt_aIn.le, ?_, le_refl _⟩
    have h3 := hv.bMaxMatch_eq
    have h4 := hv.bMaxMatch_pos
    omega
  · dsimp only
    have h2 : a < m.bMaxMatch := not_le.mp hfull
    have hb := partial_aOut_bounds m hv a h1 h2
    have h3 := hv.bMaxMatch_eq
    have h4 := hv.bMinMatch_pos
    exact ⟨by linarith [hb.1], hb.2, by linarith, by linarith⟩

/-- Monotonicity of the outputs in the allowance: `aOut` does not increase,
`bOut` does not decrease. -/
lemma matchOuts_mono (m : OrderMatcher) (hv : m.Valid) (a a' : Int)
    (h1 : m.bMinMatch ≤ a) (hle : a ≤ a') :
    (matchOuts m a').1 ≤ (matchOuts m a).1 ∧
      (matchOuts m a).2 ≤ (matchOuts m a').2 := by
  unfold matchOuts
  split_ifs with ha' ha ha
  · exact ⟨le_refl _, le_refl _⟩
  · -- a partial, a' full
    dsimp only
    have h2 : a < m.bMaxMatch := not_le.mp ha
    have hb := partial_aOut_bounds m hv a h1 h2
    have h3 := hv.bMaxMatch_eq
    exact ⟨by linarith [hb.1], by linarith⟩
  · exact absurd (le_trans ha hle) ha'
  · -- both partial
    dsimp only
    have h2 : a < m.bMaxMatch := not_le.mp ha
    have h2' : a' < m.bMaxMatch := not_le.mp ha'
    have hY := partial_num_bounds m hv a h2
    have hY' := partial_num_bounds m hv a' h2'
    have hY0 : 0 ≤ m.bScale * (m.bIn - (m.bIn + a)) + m.aScale * (m.aIn + 1) - 1 := by
      nlinarith [hv.aScale_pos, hv.aMin_nonneg]
    have hY0' : 0 ≤ m.bScale * (m.bIn - (m.bIn + a')) + m.aScale * (m.aIn + 1) - 1 := by
      nlinarith [hv.aScale_pos, hv.aMin_nonneg]
    constructor
    · unfold nonDecreasing
      rw [Int.tdiv_eq_ediv hY0 hv.aScale_pos.le,
        Int.tdiv_eq_ediv hY0' hv.aScale_pos.le]
      refine Int.ediv_le_ediv hv.aScale_pos ?_
      nlinarith [mul_le_mul_of_nonneg_left hle hv.bScale_pos.le]
    · omega

/-- Sign, partial count and non-negative size of a non-empty match. -/
lemma matchAllowance_measure (m : OrderMatcher) (hv : m.Valid) (a : Int)
    (h : m.bMinMatch ≤ a) :
    DeltaSign m.isCkb2Udt (m.matchAllowance a) ∧
      (m.matchAllowance a).partials.length = 1 := by
  rw [matchAllowance_eq_create m a h]
  have hb := matchOuts_le m hv a h
  have hc := create_measure m (matchOuts m a).1 (matchOuts m a).2 hb.2.1 hb.2.2.1
  exact ⟨hc.1, hc.2.2⟩

/-- The size of a non-empty match is monotone in the allowance. -/
lemma matchAllowance_mono (m : OrderMatcher) (hv : m.Valid) (a a' : Int)
    (h : m.bMinMatch ≤ a) (hle : a ≤ a') :
    mu (m.matchAllowance a) ≤ mu (m.matchAllowance a') := by
  rw [matchAllowance_eq_create m a h,
    matchAllowance_eq_create m a' (le_trans h hle)]
  have hb := matchOuts_le m hv a h
  have hb' := matchOuts_le m hv a' (le_trans h hle)
  have hm := matchOuts_mono m hv a a' h hle
  rw [(create_measure m (matchOuts m a).1 (matchOuts m a).2 hb.2.1 hb.2.2.1).2.1,
    (create_measure m (matchOuts m a').1 (matchOuts m a').2 hb'.2.1
      hb'.2.2.1).2.1]
  linarith [hm.1, hm.2]

/-- Chains concatenate when the second one starts from the last element of the
first. -/
lemma chain_append_of {α : Type} {R : α → α → Prop} :
    ∀ (l₁ : List α) (a : α) (l₂ : List α),
      List.Chain R a l₁ → List.Chain R (l₁.getLastD a) l₂ →
      List.Chain R a (l₁ ++ l₂) := by
  intro l₁
  induction l₁ with
  | nil =>
    intro a l₂ _ h₂
    exact h₂
  | cons b t ih =>
    intro a l₂ h₁ h₂
    rw [List.getLastD_cons] at h₂
    cases h₁ with
    | cons hab ht => exact List.Chain.cons hab (ih b l₂ ht h₂)

/-- `getLastD` is the default or a member. -/
lemma getLastD_self_or_mem {α : Type} :
    ∀ (l : List α) (a : α), l.getLastD a = a ∨ l.getLastD a ∈ l := by
  intro l
  induction l with
  | nil => intro a; exact Or.inl rfl
  | cons b t ih =>
    intro a
    rw [List.getLastD_cons]
    rcases ih b with h | h
    · right; rw [h]; exact List.mem_cons_self b t
    · right; exact List.mem_cons_of_mem b h

/-- A chain gives the step relation between any two consecutive positions. -/
lemma chain_getD {α : Type} (R : α → α → Prop) (dflt : α) :
    ∀ (l : List α) (a : α), List.Chain R a l →
      ∀ k : Nat, k + 1 < (a :: l).length →
      R ((a :: l).getD k dflt) ((a :: l).getD (k + 1) dflt) := by
  intro l
  induction l with
  | nil =>
    intro a _ k hk
    simp at hk
  | cons b t ih =>
    intro a h k hk
    cases h with
    | cons hab ht =>
      cases k with
      | zero =>
        rw [List.getD_cons_zero, List.getD_cons_succ, List.getD_cons_zero]
        exact hab
      | succ k' =>
        rw [List.getD_cons_succ, List.getD_cons_succ]
        exact ih b ht k'
          (by simp only [List.length_cons] at hk ⊢; omega)

/-- Membership through the insertion step of the ratio sort. -/
lemma mem_insertByRatio (m x : OrderMatcher) :
    ∀ l : List OrderMatcher, x ∈ insertByRatio m l ↔ x = m ∨ x ∈ l := by
  intro l
  induction l with
  | nil => simp [insertByRatio]
  | cons y ys ih =>
    unfold insertByRatio
    split_ifs with h
    · simp [List.mem_cons]
    · simp only [List.mem_cons, ih]
      tauto

/-- Membership through the ratio sort. -/
lemma mem_sortByRatio (x : OrderMatcher) :
    ∀ l : List OrderMatcher, x ∈ sortByRatio l ↔ x ∈ l := by
  intro l
  induction l with
  | nil => simp [sortByRatio]
  | cons y ys ih =>
    unfold sortByRatio at *
    rw [List.foldr_cons, mem_insertByRatio]
    simp [ih]

/-- Per-matcher invariants of the inner loop of `sequentialMatcher`: the yields
form a `Step`-chain from the entering `curr`; every yield has the direction's
delta signs and exactly one partial more than the baseline `acc`; the final
`curr` is the last yield; abandoning can only happen before the first yield;
and once the cumulative allowance has reached `bMinMatch` the loop runs to
completion. -/
lemma matcherLoop_spec (m : OrderMatcher) (hv : m.Valid) (d : Bool)
    (hd : m.isCkb2Udt = d) (acc : Match) (hacc : DeltaSign d acc)
    (q r : Int) (hq : 0 ≤ q) :
    ∀ (fuel : Nat) (i allowance : Int) (curr : Match),
      ((curr = acc ∧ 0 ≤ allowance) ∨
        (m.bMinMatch ≤ allowance ∧
          curr = Match.combine acc (m.matchAllowance allowance))) →
      List.Chain Step curr (matcherLoop m acc q r fuel i allowance curr).1 ∧
        (∀ y ∈ (matcherLoop m acc q r fuel i allowance curr).1,
          DeltaSign d y ∧ y.partials.length = acc.partials.length + 1) ∧
        (matcherLoop m acc q r fuel i allowance curr).2.2 =
          (matcherLoop m acc q r fuel i allowance curr).1.getLastD curr ∧
        ((matcherLoop m acc q r fuel i allowance curr).2.1 = false →
          (matcherLoop m acc q r fuel i allowance curr).1 = []) ∧
        (m.bMinMatch ≤ allowance →
          (matcherLoop m acc q r fuel i allowance curr).2.1 = true) := by
  intro fuel
  induction fuel with
  | zero =>
    intro i allowance curr _
    exact ⟨List.Chain.nil, by simp [matcherLoop], rfl, by simp [matcherLoop],
      fun _ => rfl⟩
  | succ fuel ih =>
    intro i allowance curr hpre
    simp only [matcherLoop]
    set ch := (if i < r then q + 1 else q) with hch
    have hch0 : 0 ≤ ch := by rw [hch]; split_ifs <;> omega
    by_cases hemp : (m.matchAllowance (allowance + ch)).partials.isEmpty = true
    · rw [if_pos hemp]
      have hlt := (matchAllowance_empty_iff m (allowance + ch)).mp hemp
      refine ⟨List.Chain.nil, by simp, rfl, fun _ => rfl, ?_⟩
      intro hall
      exact absurd hlt (not_lt.mpr (by omega))
    · rw [if_neg hemp]
      have ha' : m.bMinMatch ≤ allowance + ch :=
        not_lt.mp fun hc => hemp ((matchAllowance_empty_iff m _).mpr hc)
      obtain ⟨ihChain, ihMem, ihFin, ihAb, ihDone⟩ :=
        ih (i + 1) (allowance + ch)
          (Match.combine acc (m.matchAllowance (allowance + ch)))
          (Or.inr ⟨ha', rfl⟩)
      have hsig := matchAllowance_measure m hv (allowance + ch) ha'
      rw [hd] at hsig
      have hcomb := combine_measure d acc (m.matchAllowance (allowance + ch))
        hacc hsig.1
      have hstep : Step curr
          (Match.combine acc (m.matchAllowance (allowance + ch))) := by
        rcases hpre with ⟨hcurr, hal⟩ | ⟨hmin, hcurr⟩
        · subst hcurr
          refine ⟨?_, ?_⟩
          · rw [hcomb.2.1]
            have := mu_nonneg (m.matchAllowance (allowance + ch))
            linarith
          · rw [hcomb.2.2]
            omega
        · subst hcurr
          have hsig0 := matchAllowance_measure m hv allowance hmin
          rw [hd] at hsig0
          have hcomb0 := combine_measure d acc (m.matchAllowance allowance)
            hacc hsig0.1
          refine ⟨?_, ?_⟩
          · rw [hcomb.2.1, hcomb0.2.1]
            have := matchAllowance_mono m hv allowance (allowance + ch) hmin
              (by omega)
            linarith
          · rw [hcomb.2.2, hcomb0.2.2, hsig.2, hsig0.2]
      refine ⟨List.Chain.cons hstep ihChain, ?_, ?_, ?_, ?_⟩
      · intro y hy
        rcases List.mem_cons.mp hy with rfl | hy'
        · exact ⟨hcomb.1, by rw [hcomb.2.2, hsig.2]⟩
        · exact ihMem y hy'
      · rw [List.getLastD_cons]
        exact ihFin
      · intro hfalse
        rw [ihDone ha'] at hfalse
        exact absurd hfalse (by simp)
      · intro _
        exact ihDone ha'

/-- The yields of the outer loop of `sequentialMatcher` form a `Step`-chain
from the running cumulative match, for any list of well-formed same-direction
matchers. -/
lemma seqOuter_chain (d : Bool) (allowanceStep : Int) (hstep : 1 ≤ allowanceStep) :
    ∀ ms : List OrderMatcher,
      (∀ mm ∈ ms, mm.Valid ∧ mm.isCkb2Udt = d) →
      ∀ acc : Match, DeltaSign d acc →
      List.Chain Step acc (seqOuter allowanceStep ms acc acc) := by
  intro ms
  induction ms with
  | nil =>
    intro _ acc _
    exact List.Chain.nil
  | cons mm rest ih =>
    intro hms acc hacc
    obtain ⟨hv, hd⟩ := hms mm (List.mem_cons_self mm rest)
    have hmax1 : 1 ≤ mm.bMaxMatch := hv.bMaxMatch_pos
    simp only [seqOuter]
    set N := (mm.bMaxMatch + allowanceStep - 1).tdiv allowanceStep with hNdef
    set q := mm.bMaxMatch.tdiv N with hqdef
    set r := mm.bMaxMatch.tmod N with hrdef
    set out := matcherLoop mm acc q r N.toNat 0 0 acc with houtdef
    have hN1 : 1 ≤ N := by
      rw [hNdef, Int.tdiv_eq_ediv (by omega) (by omega),
        Int.le_ediv_iff_mul_le (by omega : (0 : Int) < allowanceStep)]
      omega
    have hq0 : 0 ≤ q := by
      rw [hqdef, Int.tdiv_eq_ediv (by omega) (by linarith)]
      exact Int.ediv_nonneg (by omega) (by linarith)
    obtain ⟨hchain, hmem, hfin, hab, -⟩ :=
      matcherLoop_spec mm hv d hd acc hacc q r hq0 N.toNat 0 0 acc
        (Or.inl ⟨rfl, le_refl 0⟩)
    rw [← houtdef] at hchain hmem hfin hab
    by_cases hdone : out.2.1 = true
    · rw [if_pos hdone]
      have hsign : DeltaSign d out.2.2 := by
        rw [hfin]
        rcases getLastD_self_or_mem out.1 acc with h | h
        · rw [h]; exact hacc
        · exact (hmem _ h).1
      have hrec := ih (fun x hx => hms x (List.mem_cons_of_mem mm hx)) out.2.2
        hsign
      refine chain_append_of _ acc _ hchain ?_
      rw [← hfin]
      exact hrec
    · rw [if_neg hdone]
      have hb : out.2.1 = false := by simpa using hdone
      have hys : out.1 = [] := hab hb
      have hfin' : out.2.2 = acc := by rw [hfin, hys]; rfl
      rw [hys, hfin']
      simp only [List.nil_append]
      exact ih (fun x hx => hms x (List.mem_cons_of_mem mm hx)) acc hacc

/-- C6 amended: under positive `allowanceStep`, non-negative `ckbMiningFee` and
the order-cell invariants, consecutive yields of `sequentialMatcher` are
monotone non-decreasing in `|ckbDelta| + |udtDelta|` and non-decreasing in the
number of partials. -/
theorem sequentialMatcher_monotone (orderPool : List OrderCell)
    (isCkb2Udt : Bool) (allowanceStep ckbMiningFee : Int)
    (hstep : 0 < allowanceStep) (hfee : 0 ≤ ckbMiningFee)
    (hpool : ∀ o ∈ orderPool, 0 ≤ o.data.udtAmount ∧ 0 ≤ o.ckbUnoccupied ∧
      o.ckbUnoccupied ≤ o.cell.cellOutput.capacity)
    (k : Nat)
    (hk : k + 1 <
      (sequentialMatcher orderPool isCkb2Udt allowanceStep ckbMiningFee).length) :
    (|((sequentialMatcher orderPool isCkb2Udt allowanceStep
          ckbMiningFee).getD k emptyMatch).ckbDelta| +
        |((sequentialMatcher orderPool isCkb2Udt allowanceStep
          ckbMiningFee).getD k emptyMatch).udtDelta| ≤
      |((sequentialMatcher orderPool isCkb2Udt allowanceStep
          ckbMiningFee).getD (k + 1) emptyMatch).ckbDelta| +
        |((sequentialMatcher orderPool isCkb2Udt allowanceStep
          ckbMiningFee).getD (k + 1) emptyMatch).udtDelta|) ∧
      ((sequentialMatcher orderPool isCkb2Udt allowanceStep
          ckbMiningFee).getD k emptyMatch).partials.length ≤
        ((sequentialMatcher orderPool isCkb2Udt allowanceStep
          ckbMiningFee).getD (k + 1) emptyMatch).partials.length := by
  have hms : ∀ mm ∈ sortByRatio (orderPool.filterMap fun o =>
      OrderMatcher.fromOrder o isCkb2Udt ckbMiningFee),
      mm.Valid ∧ mm.isCkb2Udt = isCkb2Udt := by
    intro mm hmm
    rw [mem_sortByRatio] at hmm
    obtain ⟨o, ho, hfo⟩ := List.mem_filterMap.mp hmm
    obtain ⟨h1, h2, h3⟩ := hpool o ho
    have hval := fromOrder_valid o isCkb2Udt ckbMiningFee mm hfee h1 h2 h3 hfo
    exact ⟨hval.1, hval.2.1⟩
  have hacc : DeltaSign isCkb2Udt emptyMatch := by
    cases isCkb2Udt <;> simp [DeltaSign, emptyMatch]
  have hchain := seqOuter_chain isCkb2Udt allowanceStep (by omega) _ hms
    emptyMatch hacc
  have hstep' := chain_getD Step emptyMatch _ emptyMatch hchain k
    (by simpa [sequentialMatcher] using hk)
  simpa [sequentialMatcher] using hstep'

/-- C6 counterexample: a single-order pool where one matcher yields twice, so
two consecutive yields carry the same number of partials, refuting strict
growth of the partial count. -/
theorem sequentialMatcher_partials_not_strict :
    2 < (sequentialMatcher [testOrder] true 10 0).length ∧
      ((sequentialMatcher [testOrder] true 10 0).getD 1 emptyMatch).partials.length = 1 ∧
      ((sequentialMatcher [testOrder] true 10 0).getD 2 emptyMatch).partials.length = 1 ∧
      ¬ (((sequentialMatcher [testOrder] true 10 0).getD 1
            emptyMatch).partials.length <
          ((sequentialMatcher [testOrder] true 10 0).getD 2
            emptyMatch).partials.length) := by
  decide

/-- C6 witness: the amended monotonicity at the concrete single-order pool,
between the first and second yields. -/
theorem sequentialMatcher_monotone_witness :
    (|((sequentialMatcher [testOrder] true 10 0).getD 0 emptyMatch).ckbDelta| +
        |((sequentialMatcher [testOrder] true 10 0).getD 0 emptyMatch).udtDelta| ≤
      |((sequentialMatcher [testOrder] true 10 0).getD (0 + 1)
          emptyMatch).ckbDelta| +
        |((sequentialMatcher [testOrder] true 10 0).getD (0 + 1)
          emptyMatch).udtDelta|) ∧
      ((sequentialMatcher [testOrder] true 10 0).getD 0
          emptyMatch).partials.length ≤
        ((sequentialMatcher [testOrder] true 10 0).getD (0 + 1)
          emptyMatch).partials.length :=
  sequentialMatcher_monotone [testOrder] true 10 0 (by decide) (by decide)
    (by decide) 0 (by decide)

end IckbOrder
